import Mathlib

/-!
Shallow embedding of the `entity-locale` module (`src/lib/index.js`).

The `Locale` class keeps an in-memory table `_locales`: a plain JS object
mapping a language code to an object mapping message keys to translated
strings.  JS plain objects are modelled as insertion-ordered association
lists (`JsObj`): property read returns the first binding, property write
updates an existing binding in place or appends a fresh one.  JS error
values are modelled by their message string.  Asynchronous collaborators
(the `glob` listing, `require` file parsing, the database collection) are
modelled by passing their responses as explicit arguments; callback
results `done(err)` become an `Option JsErr` paired with the resulting
table.
-/

set_option autoImplicit false

namespace EntityLocale

/-- A JS error value, modelled by its message. -/
abbrev JsErr := String

/-- A JS plain object, as an insertion-ordered association list. -/
abbrev JsObj (α : Type) := List (String × α)

/-- JS property read `o[k]`: the first binding for `k`, `undefined` (`none`) otherwise. -/
def jsGet {α : Type} : JsObj α → String → Option α
  | [], _ => none
  | (k, v) :: o, key => if k = key then some v else jsGet o key

/-- JS property write `o[k] = v`: update an existing binding in place, else append. -/
def jsSet {α : Type} : JsObj α → String → α → JsObj α
  | [], key, v => [(key, v)]
  | (k, w) :: o, key, v => if k = key then (k, v) :: o else (k, w) :: jsSet o key v

/-- One language's translations: message key to translated string. -/
abbrev TranslationSet := JsObj String

/-- The `_locales` table: language code to translation set. -/
abbrev Table := JsObj TranslationSet

/-- Two-level read `table[language][msg]` (with `undefined` propagation). -/
def tableGet (tbl : Table) (language msg : String) : Option String :=
  (jsGet tbl language).bind fun s => jsGet s msg

/-- JS truthiness of a string-valued property read: `undefined` and `''` are falsy. -/
def truthy : Option String → Bool
  | none => false
  | some s => !s.isEmpty

/-- The idiom `if (locales[language] === undefined) locales[language] = {}`:
the set subsequent writes go through. -/
def langSet (tbl : Table) (language : String) : TranslationSet :=
  match jsGet tbl language with
  | none => []
  | some s => s

/-- A document of the `locales` database collection. -/
structure TranslationRecord where
  language : String
  msg : String
  translation : String
  deriving DecidableEq, Repr

/-- `Locale.prototype._addFromDatabase`, given the documents returned by
`find`: for each doc in order, create the language object when absent and
set `locales[doc.language][doc.msg] = doc.translation` unconditionally. -/
def _addFromDatabase (docs : List TranslationRecord) (tbl : Table) : Table :=
  docs.foldl
    (fun loc doc => jsSet loc doc.language (jsSet (langSet loc doc.language) doc.msg doc.translation))
    tbl

/-- JS `str.split('.')` on the character list: split at every `'.'`;
the empty string splits to `[""]`.  (Structural, so concrete filenames
evaluate inside the kernel.) -/
def splitDot : List Char → List (List Char)
  | [] => [[]]
  | c :: rest =>
    match splitDot rest with
    | [] => []
    | seg :: segs => if c = '.' then [] :: seg :: segs else (c :: seg) :: segs

/-- JS `str.split('.')` as a list of strings. -/
def jsSplitDot (s : String) : List String :=
  (splitDot s.data).map String.mk

/-- The language code computed in `_processFile`: `filename.split('.')[1]`.
When the filename has no dot, the JS index read yields `undefined`, which as
a property key coerces to the string `"undefined"`. -/
def languageOf (filename : String) : String :=
  (jsSplitDot filename).getD 1 "undefined"

/-- The body of the `for (var msg in locale)` loop of `_processFile`: skip
the key when the current value `locales[language][msg]` is truthy, set it
otherwise. -/
def fileInsert (s : TranslationSet) (p : String × String) : TranslationSet :=
  if truthy (jsGet s p.1) then s else jsSet s p.1 p.2

/-- `Locale.prototype._processFile`, given the outcome of `require(filename)`
(the parsed flat mapping, or the thrown error): on a successful parse, create
the language object when absent, then run the key loop over the mapping in
order; a thrown error reaches `done(err)` before any mutation. -/
def _processFile (filename : String) (required : Except JsErr (JsObj String)) (tbl : Table) :
    Table × Option JsErr :=
  match required with
  | .error e => (tbl, some e)
  | .ok locale =>
    let language := languageOf filename
    (jsSet tbl language (locale.foldl fileInsert (langSet tbl language)), none)

/-- `Locale.prototype.addFromFile`: delegates to `_processFile`. -/
def addFromFile (filename : String) (required : Except JsErr (JsObj String)) (tbl : Table) :
    Table × Option JsErr :=
  _processFile filename required tbl

/-- The eligibility test applied to each path listed by `glob` in
`addFromDir`: `splt = item.split('.')` must have exactly 3 segments with a
2-character middle segment. -/
def eligibleFile (item : String) : Bool :=
  let splt := jsSplitDot item
  splt.length == 3 && (splt.getD 1 "").length == 2

/-- The `async.series` queue built by `addFromDir`: process the files in
order, halting at the first error. -/
def processQueue (required : String → Except JsErr (JsObj String)) :
    List String → Table → Table × Option JsErr
  | [], tbl => (tbl, none)
  | f :: fs, tbl =>
    match addFromFile f (required f) tbl with
    | (tbl1, none) => processQueue required fs tbl1
    | (tbl1, some e) => (tbl1, some e)

/-- `Locale.prototype.addFromDir`, given the outcome of the `glob` listing
and the `require` behaviour: on a listing error report it at once; else
queue exactly the eligible files, in listing order. -/
def addFromDir (globRes : Except JsErr (List String))
    (required : String → Except JsErr (JsObj String)) (tbl : Table) :
    Table × Option JsErr :=
  match globRes with
  | .error e => (tbl, some e)
  | .ok files => processQueue required (files.filter fun item => eligibleFile item) tbl

/-- The error thrown by `locales` (`throw new Error()` — spec:
`UndefinedLanguageError`); the code attaches no data to it. -/
abbrev UndefinedLanguageError := Unit

/-- `Locale.prototype.locales`: throw when `_locales[language]` is
`undefined`, else return that language's set. -/
def locales (tbl : Table) (language : String) :
    Except UndefinedLanguageError TranslationSet :=
  match jsGet tbl language with
  | none => .error ()
  | some s => .ok s

/-- The database phase of initialization, given the outcome of the
collection `find`: on a read error report it; else apply
`_addFromDatabase`. -/
def loadFromStore (findRes : Except JsErr (List TranslationRecord)) (tbl : Table) :
    Table × Option JsErr :=
  match findRes with
  | .error e => (tbl, some e)
  | .ok docs => (_addFromDatabase docs tbl, none)

/-- The guard `if (dir && dir !== '')` on the directory phase. -/
def dirCond : Option String → Bool
  | none => false
  | some d => !(d = "")

/-- `Locale.prototype` initialization (`async.series` over the directory
phase, when `dir` is supplied and non-empty, then the database phase): the
second phase runs only when the first reports no error. -/
def initLocale (dir : Option String) (globRes : Except JsErr (List String))
    (required : String → Except JsErr (JsObj String))
    (findRes : Except JsErr (List TranslationRecord)) (tbl : Table) :
    Table × Option JsErr :=
  if dirCond dir then
    match addFromDir globRes required tbl with
    | (tbl1, none) => loadFromStore findRes tbl1
    | (tbl1, some e) => (tbl1, some e)
  else
    loadFromStore findRes tbl

/-- The document written by `translate`: the found record, or a fresh
`{language, msg}` object, with its `translation` field then set. -/
def translateDoc (found : Option TranslationRecord) (language msg tr : String) :
    TranslationRecord :=
  let doc0 : TranslationRecord := match found with
    | none => { language := language, msg := msg, translation := tr }
    | some d => d
  { doc0 with translation := tr }

/-- `Locale.prototype.translate`, given the outcomes of the collection
`findOne` and `save` calls: on a lookup error report it at once; else build
the document, set `_locales[language][str] = translation` in memory
(creating the language object when absent), then save the document and
report the save outcome. -/
def translate (language msg tr : String)
    (findOneRes : Except JsErr (Option TranslationRecord))
    (saveRes : TranslationRecord → Except JsErr Unit) (tbl : Table) :
    Table × Option JsErr :=
  match findOneRes with
  | .error e => (tbl, some e)
  | .ok found =>
    let doc := translateDoc found language msg tr
    let tbl1 := jsSet tbl language (jsSet (langSet tbl language) msg tr)
    match saveRes doc with
    | .error e2 => (tbl1, some e2)
    | .ok _ => (tbl1, none)

/-- The token/replacement arrays built by the `for (var arg in params)` loop
of `_strtr`: `from` entries `':' + arg` (kept as the head character `':'`
plus the tail `arg`) paired with `to` entries `params[arg]`. -/
def strtrPairs (params : JsObj String) : List (Char × List Char × String) :=
  params.map fun p => (':', p.1.data, p.2)

/-- The inner `j` loop of `_strtr`: the first pair whose `from` text equals
`str.substr(i, from[j].length)`. -/
def strtrMatch (s : List Char) (i : Nat) :
    List (Char × List Char × String) → Option (Char × List Char × String)
  | [] => none
  | (c, f, v) :: rest =>
    if (s.drop i).take (c :: f).length = c :: f then some (c, f, v)
    else strtrMatch s i rest

/-- The outer `i` loop of `_strtr`: on a match append `to[j]` and jump `i`
past the matched text (`i = (i + from[j].length) - 1` followed by the
`i++`); otherwise append `str.charAt(i)` and advance by one. -/
def strtrLoop (s : List Char) (pairs : List (Char × List Char × String)) (i : Nat) :
    List Char :=
  if h : i < s.length then
    match strtrMatch s i pairs with
    | some (c, f, v) => v.data ++ strtrLoop s pairs (i + (c :: f).length)
    | none => s.get ⟨i, h⟩ :: strtrLoop s pairs (i + 1)
  else []
termination_by s.length - i
decreasing_by
  · simp only [List.length_cons]; omega
  · omega

/-- `Locale.prototype._strtr`: build the token/replacement arrays from
`params` (an absent `params` enumerates as the empty object), then run the
scan loop from position 0. -/
def _strtr (str : String) (params : JsObj String) : String :=
  ⟨strtrLoop str.data (strtrPairs params) 0⟩

/-- Modelled from the spec, §4.8 (stated only to compare against `_strtr`):
a single left-to-right scan; at each position the first token `:name` of
`params`, in the order provided, whose text matches there is replaced by its
value and the scan advances past the matched text; otherwise the current
character is emitted and the scan advances by one. -/
def specScan (params : JsObj String) : List Char → List Char
  | [] => []
  | c :: cs =>
    match params.find? (fun p => (c :: cs).take (p.1.length + 1) = ':' :: p.1.data) with
    | some p => p.2.data ++ specScan params (cs.drop p.1.length)
    | none => c :: specScan params cs
termination_by l => l.length
decreasing_by
  · simp only [List.length_cons, List.length_drop]; omega
  · simp only [List.length_cons]; omega

/-- §4.8 substitution as a function on strings. -/
def specSubstitute (str : String) (params : JsObj String) : String :=
  ⟨specScan params str.data⟩

/-- `Locale.prototype.t`: replace `str` by its stored translation when the
guard `this._locales[language] && this._locales[language][str]` is truthy
(the set, being an object, is truthy whenever present; the stored string is
truthy when non-empty), then apply `_strtr` with `params`. -/
def t (tbl : Table) (language str : String) (params : JsObj String) : String :=
  let str1 :=
    match jsGet tbl language with
    | none => str
    | some set =>
      match jsGet set str with
      | none => str
      | some v => if v.isEmpty then str else v
  _strtr str1 params

/-- A concrete `require` behaviour used to exercise the directory queue:
every file parses to a one-key mapping except `"bad"`, which throws. -/
def demoContents : String → Except JsErr (JsObj String) :=
  fun f => if f = "bad" then .error "boom" else .ok [("Hello", "Bonjour")]

section Lemmas

theorem jsGet_jsSet_self {α : Type} (o : JsObj α) (k : String) (v : α) :
    jsGet (jsSet o k v) k = some v := by
  induction o with
  | nil => simp [jsSet, jsGet]
  | cons p o ih =>
    obtain ⟨k', v'⟩ := p
    by_cases h : k' = k
    · subst h; simp [jsSet, jsGet]
    · simp [jsSet, jsGet, h, ih]

theorem jsGet_jsSet_ne {α : Type} (o : JsObj α) (k key : String) (v : α) (h : k ≠ key) :
    jsGet (jsSet o k v) key = jsGet o key := by
  induction o with
  | nil => simp [jsSet, jsGet, h]
  | cons p o ih =>
    obtain ⟨k', v'⟩ := p
    by_cases h' : k' = k
    · subst h'; simp [jsSet, jsGet, h]
    · simp [jsSet, jsGet, h', ih]

theorem jsGet_langSet (tbl : Table) (l k : String) :
    jsGet (langSet tbl l) k = tableGet tbl l k := by
  cases h : jsGet tbl l <;> simp [langSet, tableGet, h, jsGet]

theorem tableGet_set_self (tbl : Table) (l m v : String) :
    tableGet (jsSet tbl l (jsSet (langSet tbl l) m v)) l m = some v := by
  simp [tableGet, jsGet_jsSet_self]

theorem tableGet_set_ne (tbl : Table) (l m v l' m' : String) (h : ¬(l' = l ∧ m' = m)) :
    tableGet (jsSet tbl l (jsSet (langSet tbl l) m v)) l' m' = tableGet tbl l' m' := by
  by_cases hl : l' = l
  · subst hl
    have hm : m' ≠ m := fun hm => h ⟨rfl, hm⟩
    simp [tableGet, jsGet_jsSet_self]
    rw [jsGet_jsSet_ne _ _ _ _ (fun he => hm he.symm)]
    have := jsGet_langSet tbl l' m'
    simp [tableGet] at this
    exact this
  · simp [tableGet]
    rw [jsGet_jsSet_ne _ _ _ _ (fun he => hl he.symm)]

theorem addFromDatabase_cons (d : TranslationRecord) (ds : List TranslationRecord) (tbl : Table) :
    _addFromDatabase (d :: ds) tbl =
      _addFromDatabase ds
        (jsSet tbl d.language (jsSet (langSet tbl d.language) d.msg d.translation)) := rfl

theorem addFromDatabase_not_mem (docs : List TranslationRecord) (tbl : Table) (l m : String)
    (h : ∀ d ∈ docs, ¬(d.language = l ∧ d.msg = m)) :
    tableGet (_addFromDatabase docs tbl) l m = tableGet tbl l m := by
  induction docs generalizing tbl with
  | nil => rfl
  | cons d ds ih =>
    rw [addFromDatabase_cons, ih _ fun d' hd' => h d' (List.mem_cons_of_mem _ hd')]
    apply tableGet_set_ne
    rintro ⟨hl, hm⟩
    exact h d (List.mem_cons_self _ _) ⟨hl.symm, hm.symm⟩

theorem addFromDatabase_mem :
    ∀ (docs : List TranslationRecord),
      (docs.map fun d => (d.language, d.msg)).Nodup →
      ∀ (tbl : Table) (r : TranslationRecord), r ∈ docs →
        tableGet (_addFromDatabase docs tbl) r.language r.msg = some r.translation := by
  intro docs
  induction docs with
  | nil => intro _ tbl r hr; cases hr
  | cons d ds ih =>
    intro hnd tbl r hr
    rw [List.map_cons, List.nodup_cons] at hnd
    rcases List.mem_cons.mp hr with rfl | hr'
    · rw [addFromDatabase_cons, addFromDatabase_not_mem]
      · exact tableGet_set_self tbl r.language r.msg r.translation
      · rintro d' hd' ⟨hl, hm⟩
        exact hnd.1 (by rw [← hl, ← hm]; exact List.mem_map_of_mem _ hd')
    · rw [addFromDatabase_cons]
      exact ih hnd.2 _ r hr'

theorem foldl_fileInsert_not_mem (entries : JsObj String) (s : TranslationSet) (k : String)
    (h : ∀ p ∈ entries, p.1 ≠ k) :
    jsGet (entries.foldl fileInsert s) k = jsGet s k := by
  induction entries generalizing s with
  | nil => rfl
  | cons p ps ih =>
    rw [List.foldl_cons, ih _ fun q hq => h q (List.mem_cons_of_mem _ hq)]
    unfold fileInsert
    by_cases ht : truthy (jsGet s p.1)
    · simp [ht]
    · simp [ht, jsGet_jsSet_ne _ _ _ _ (h p (List.mem_cons_self _ _))]

theorem foldl_fileInsert_mem :
    ∀ (entries : JsObj String), (entries.map Prod.fst).Nodup →
      ∀ (s : TranslationSet) (k v : String), (k, v) ∈ entries →
        jsGet (entries.foldl fileInsert s) k =
          if truthy (jsGet s k) then jsGet s k else some v := by
  intro entries
  induction entries with
  | nil => intro _ s k v h; cases h
  | cons p ps ih =>
    intro hnd s k v hmem
    rw [List.map_cons, List.nodup_cons] at hnd
    rcases List.mem_cons.mp hmem with heq | hmem'
    · obtain rfl := heq.symm
      rw [List.foldl_cons]
      have hkn : ∀ q ∈ ps, q.1 ≠ k := by
        intro q hq hqk
        have hmem2 : q.1 ∈ ps.map Prod.fst := List.mem_map_of_mem _ hq
        rw [hqk] at hmem2
        exact hnd.1 hmem2
      rw [foldl_fileInsert_not_mem ps _ k hkn]
      unfold fileInsert
      by_cases ht : truthy (jsGet s k)
      · simp [ht]
      · simp [ht, jsGet_jsSet_self]
    · rw [List.foldl_cons]
      have hk : k ∈ ps.map Prod.fst := List.mem_map_of_mem _ hmem'
      have hpk : p.1 ≠ k := fun h => hnd.1 (h ▸ hk)
      have hstep : jsGet (fileInsert s p) k = jsGet s k := by
        unfold fileInsert
        by_cases ht : truthy (jsGet s p.1) <;>
          simp [ht, jsGet_jsSet_ne _ _ _ _ hpk]
      rw [ih hnd.2 _ k v hmem', hstep]

theorem processFile_ok (filename : String) (locale : JsObj String) (tbl : Table) :
    _processFile filename (.ok locale) tbl =
      (jsSet tbl (languageOf filename)
        (locale.foldl fileInsert (langSet tbl (languageOf filename))), none) := rfl

theorem strtrMatch_eq_find (params : JsObj String) (s : List Char) (i : Nat) :
    strtrMatch s i (strtrPairs params) =
      (params.find? fun p => (s.drop i).take (p.1.length + 1) = ':' :: p.1.data).map
        fun p => (':', p.1.data, p.2) := by
  induction params with
  | nil => rfl
  | cons p ps ih =>
    simp only [strtrPairs, List.map_cons, strtrMatch, List.length_cons]
    by_cases hc : (s.drop i).take (p.1.data.length + 1) = ':' :: p.1.data
    · rw [if_pos hc]
      simp only [List.find?_cons]
      rw [show decide ((s.drop i).take (p.1.length + 1) = ':' :: p.1.data) = true from
        decide_eq_true hc]
      rfl
    · rw [if_neg hc]
      simp only [List.find?_cons]
      rw [show decide ((s.drop i).take (p.1.length + 1) = ':' :: p.1.data) = false from
        decide_eq_false hc]
      simpa [strtrPairs] using ih

theorem strtrLoop_eq_specScan (params : JsObj String) (s : List Char) :
    ∀ (n i : Nat), s.length - i ≤ n →
      strtrLoop s (strtrPairs params) i = specScan params (s.drop i) := by
  intro n
  induction n with
  | zero =>
    intro i h
    rw [strtrLoop, dif_neg (by omega), List.drop_eq_nil_of_le (by omega), specScan]
  | succ n ih =>
    intro i h
    by_cases hi : i < s.length
    · rw [strtrLoop, dif_pos hi, strtrMatch_eq_find]
      have hdrop : s.drop i = s[i] :: s.drop (i + 1) := List.drop_eq_getElem_cons hi
      cases hf : params.find? fun p => (s.drop i).take (p.1.length + 1) = ':' :: p.1.data with
      | none =>
        have hf' : (params.find?
            fun p => (s[i] :: s.drop (i + 1)).take (p.1.length + 1) = ':' :: p.1.data) = none := by
          rw [← hdrop]; exact hf
        rw [hdrop, specScan, hf']
        simp only [Option.map_none', List.get_eq_getElem]
        rw [ih (i + 1) (by omega)]
      | some p =>
        have hf' : (params.find?
            fun q => (s[i] :: s.drop (i + 1)).take (q.1.length + 1) = ':' :: q.1.data) = some p := by
          rw [← hdrop]; exact hf
        rw [hdrop, specScan, hf']
        simp only [Option.map_some', List.length_cons]
        rw [List.drop_drop, ih (i + (p.1.data.length + 1)) (by omega)]
        have harith : i + 1 + p.1.length = i + (p.1.data.length + 1) := by
          show i + 1 + p.1.data.length = i + (p.1.data.length + 1)
          omega
        rw [harith]
    · rw [strtrLoop, dif_neg hi, List.drop_eq_nil_of_le (by omega), specScan]

theorem strtr_eq_specSubstitute (str : String) (params : JsObj String) :
    _strtr str params = specSubstitute str params := by
  unfold _strtr specSubstitute
  rw [strtrLoop_eq_specScan params str.data str.data.length 0 (by omega)]
  rfl

theorem specScan_nil_params (s : List Char) : specScan [] s = s := by
  induction s with
  | nil => rw [specScan]
  | cons c cs ih => rw [specScan]; simpa [List.find?] using ih

theorem strtr_nil_params (str : String) : _strtr str [] = str := by
  rw [strtr_eq_specSubstitute]
  unfold specSubstitute
  rw [specScan_nil_params]

theorem processQueue_congr (c1 c2 : String → Except JsErr (JsObj String)) :
    ∀ (fs : List String), (∀ g ∈ fs, c1 g = c2 g) →
      ∀ (tbl : Table), processQueue c1 fs tbl = processQueue c2 fs tbl := by
  intro fs
  induction fs with
  | nil => intro _ tbl; rfl
  | cons g gs ih =>
    intro h tbl
    have hg := h g (List.mem_cons_self _ _)
    simp only [processQueue, hg]
    cases haf : addFromFile g (c2 g) tbl with
    | mk t1 o =>
      cases o with
      | none => exact ih (fun q hq => h q (List.mem_cons_of_mem _ hq)) t1
      | some e => rfl

theorem processQueue_prefix_error (c : String → Except JsErr (JsObj String))
    (pre : List String) (hpre : ∀ g ∈ pre, ∃ m, c g = .ok m) :
    ∀ (post : List String) (f : String) (tbl : Table) (e : JsErr), c f = .error e →
      processQueue c (pre ++ f :: post) tbl = ((processQueue c pre tbl).1, some e) := by
  induction pre with
  | nil =>
    intro post f tbl e hf
    simp [processQueue, addFromFile, _processFile, hf]
  | cons g gs ih =>
    intro post f tbl e hf
    obtain ⟨m, hm⟩ := hpre g (List.mem_cons_self _ _)
    simp only [List.cons_append, processQueue, hm, addFromFile, _processFile]
    exact ih (fun q hq => hpre q (List.mem_cons_of_mem _ hq)) post f _ e hf

theorem processQueue_halt_agree (c c2 : String → Except JsErr (JsObj String))
    (pre : List String) (hpre : ∀ g ∈ pre, ∃ m, c g = .ok m) :
    ∀ (post : List String) (f : String) (tbl : Table) (e : JsErr),
      c f = .error e → (∀ g ∈ pre, c2 g = c g) → c2 f = c f →
      processQueue c2 (pre ++ f :: post) tbl = processQueue c (pre ++ f :: post) tbl := by
  induction pre with
  | nil =>
    intro post f tbl e hf _ hfa
    simp [processQueue, addFromFile, _processFile, hfa, hf]
  | cons g gs ih =>
    intro post f tbl e hf hagree hfa
    obtain ⟨m, hm⟩ := hpre g (List.mem_cons_self _ _)
    have hg2 : c2 g = .ok m := by rw [hagree g (List.mem_cons_self _ _), hm]
    simp only [List.cons_append, processQueue, hm, hg2, addFromFile, _processFile]
    exact ih (fun q hq => hpre q (List.mem_cons_of_mem _ hq)) post f _ e hf
      (fun q hq => hagree q (List.mem_cons_of_mem _ hq)) hfa

end Lemmas

section Claims

/-- C5: `_strtr str params` performs a single left-to-right scan: at each
position the first token `:name` of `params`, in enumeration order (not
longest-match), that matches there is replaced by its value with the scan
advancing past the matched text, and otherwise the single current character
is emitted with the scan advancing by one — i.e. `_strtr` agrees with the
scan `specSubstitute` stated from §4.8; and with absent or empty `params`
the result equals `str`. -/
theorem strtr_scan_spec :
    (∀ (str : String) (params : JsObj String),
      _strtr str params = specSubstitute str params) ∧
    (∀ str : String, _strtr str [] = str) :=
  ⟨strtr_eq_specSubstitute, strtr_nil_params⟩

/-- C6: `locales` fails with the undefined-language error exactly when the
language is absent from the in-memory table, and for any present language —
in particular any language with at least one loaded key — it succeeds and
returns that language's full translation set. -/
theorem locales_fails_iff_absent (tbl : Table) (language : String) :
    (locales tbl language = .error () ↔ jsGet tbl language = none) ∧
    (∀ s, jsGet tbl language = some s → locales tbl language = .ok s) := by
  refine ⟨⟨fun h => ?_, fun h => by simp [locales, h]⟩, fun s h => by simp [locales, h]⟩
  cases hg : jsGet tbl language with
  | none => rfl
  | some s => simp [locales, hg] at h

/-- C6 witness: a table holding one `fr` key makes `locales` succeed with
that full set. -/
theorem locales_fails_iff_absent_witness :
    locales [("fr", [("a", "b")])] "fr" = .ok [("a", "b")] :=
  (locales_fails_iff_absent [("fr", [("a", "b")])] "fr").2 [("a", "b")] (by decide)

/-- C4 counterexample: with the translation of key `"k"` loaded as the empty
string, the pair is present in the table, yet `t` returns the substituted
key `"k"` instead of the substituted translated value `_strtr "" [] = ""` —
the claim fails on falsy (empty-string) translations. -/
theorem t_claim_counterexample :
    tableGet [("fr", [("k", "")])] "fr" "k" = some "" ∧
    t [("fr", [("k", "")])] "fr" "k" [] = "k" ∧
    _strtr "" [] = "" ∧ ("k" : String) ≠ "" := by
  refine ⟨by decide, ?_, strtr_nil_params "", by decide⟩
  have hempty : ("" : String).isEmpty = true := by decide
  have h : t [("fr", [("k", "")])] "fr" "k" [] = _strtr "k" [] := by
    simp [t, jsGet, hempty]
  rw [h, strtr_nil_params]

/-- C4 (amended): `t(language, key, params)` never fails; it returns the
token-substituted translated value when the table holds a non-empty
translation for the pair, and the token-substituted original `key` otherwise
— when the language is absent, the key is absent, or the stored translation
is the empty string (JS-falsy). -/
theorem t_amended (tbl : Table) (language key : String) (params : JsObj String) :
    t tbl language key params =
      match tableGet tbl language key with
      | some v => if v.isEmpty then _strtr key params else _strtr v params
      | none => _strtr key params := by
  cases hg : jsGet tbl language with
  | none => simp [t, tableGet, hg]
  | some set =>
    cases hk : jsGet set key with
    | none => simp [t, tableGet, hg, hk]
    | some v =>
      by_cases hv : v.isEmpty <;> simp [t, tableGet, hg, hk, hv]

/-- C1 counterexample: with a store whose `findOne` succeeds (no existing
document) and whose `save` fails, `translate` reports the save error — yet
the in-memory table, empty before the call, now holds the new translation:
the memory write is not gated on the store write succeeding. -/
theorem translate_claim_counterexample :
    (translate "fr" "Hello" "Bonjour" (.ok none) (fun _ => .error "save failed") []).2
        = some "save failed" ∧
    (translate "fr" "Hello" "Bonjour" (.ok none) (fun _ => .error "save failed") []).1
        = [("fr", [("Hello", "Bonjour")])] ∧
    [("fr", [("Hello", "Bonjour")])] ≠ ([] : Table) := by
  decide

/-- C1 (amended): `translate` sets `table[language][key] = translation`
after a successful `findOne` but before the `save`: if the lookup fails the
call fails with that error and the table is exactly as before; once the
lookup succeeds the entry is set (all other entries unchanged) whatever the
save outcome, and the call's outcome is exactly the save's outcome on the
written document. -/
theorem translate_amended (language key tr : String) (found : Option TranslationRecord)
    (saveRes : TranslationRecord → Except JsErr Unit) (tbl : Table) :
    (∀ e, translate language key tr (.error e) saveRes tbl = (tbl, some e)) ∧
    tableGet (translate language key tr (.ok found) saveRes tbl).1 language key = some tr ∧
    (∀ l m, ¬(l = language ∧ m = key) →
      tableGet (translate language key tr (.ok found) saveRes tbl).1 l m
        = tableGet tbl l m) ∧
    (translate language key tr (.ok found) saveRes tbl).2 =
      (match saveRes (translateDoc found language key tr) with
       | .error e2 => some e2
       | .ok _ => none) := by
  have h1 : (translate language key tr (.ok found) saveRes tbl).1 =
      jsSet tbl language (jsSet (langSet tbl language) key tr) := by
    cases h : saveRes (translateDoc found language key tr) <;> simp [translate, h]
  refine ⟨fun e => rfl, ?_, ?_, ?_⟩
  · rw [h1]
    exact tableGet_set_self tbl language key tr
  · intro l m hlm
    rw [h1]
    exact tableGet_set_ne tbl language key tr l m hlm
  · cases h : saveRes (translateDoc found language key tr) <;> simp [translate, h]

/-- C1 witness: at a concrete failing save, an entry of another language is
untouched by `translate`. -/
theorem translate_amended_witness :
    tableGet (translate "fr" "Hi" "Salut" (.ok none) (fun _ => .error "boom")
        [("en", [("Hi", "Hello")])]).1 "en" "Hi"
      = tableGet [("en", [("Hi", "Hello")])] "en" "Hi" :=
  (translate_amended "fr" "Hi" "Salut" none (fun _ => .error "boom")
      [("en", [("Hi", "Hello")])]).2.2.1 "en" "Hi" (by decide)

/-- C2 counterexample: the per-key guard of `_processFile` is a JS
truthiness test, so an existing empty-string entry is overwritten: with
`table[fr][k] = ""` already in memory, loading a file mapping `k` to
`"new"` succeeds — and replaces the existing value. -/
theorem processFile_claim_counterexample :
    (addFromFile "a.fr.json" (.ok [("k", "new")]) [("fr", [("k", "")])]).2 = none ∧
    tableGet [("fr", [("k", "")])] "fr" "k" = some "" ∧
    tableGet (addFromFile "a.fr.json" (.ok [("k", "new")]) [("fr", [("k", "")])]).1 "fr" "k"
      = some "new" ∧
    some "new" ≠ some ("" : String) := by
  decide

/-- C2 (amended): for every successful `addFromFile` and every key `k` of
the parsed mapping (whose keys, coming from a JS object, are distinct): the
existing in-memory entry for `k` survives exactly when it is truthy
(present and non-empty); the file's value for `k` is inserted when no entry
existed or the existing value was the empty string. -/
theorem addFromFile_first_writer (filename : String) (locale : JsObj String) (tbl : Table)
    (hnd : (locale.map Prod.fst).Nodup) :
    (addFromFile filename (.ok locale) tbl).2 = none ∧
    ∀ k v, (k, v) ∈ locale →
      tableGet (addFromFile filename (.ok locale) tbl).1 (languageOf filename) k =
        if truthy (tableGet tbl (languageOf filename) k)
        then tableGet tbl (languageOf filename) k
        else some v := by
  refine ⟨rfl, fun k v hmem => ?_⟩
  have h1 : (addFromFile filename (.ok locale) tbl).1 =
      jsSet tbl (languageOf filename)
        (locale.foldl fileInsert (langSet tbl (languageOf filename))) := rfl
  rw [h1]
  have h2 : tableGet
      (jsSet tbl (languageOf filename)
        (locale.foldl fileInsert (langSet tbl (languageOf filename))))
      (languageOf filename) k
      = jsGet (locale.foldl fileInsert (langSet tbl (languageOf filename))) k := by
    simp [tableGet, jsGet_jsSet_self]
  rw [h2, foldl_fileInsert_mem locale hnd _ k v hmem, jsGet_langSet]

/-- C2 witness: a concrete file load inserting a fresh key. -/
theorem addFromFile_first_writer_witness :
    tableGet (addFromFile "a.fr.json" (.ok [("k", "v")]) []).1 "fr" "k" = some "v" := by
  have h := (addFromFile_first_writer "a.fr.json" [("k", "v")] [] (by decide)).2
    "k" "v" (by decide)
  have hl : languageOf "a.fr.json" = "fr" := by decide
  rw [hl] at h
  rw [h]
  decide

/-- C3: after a successful `loadFromStore`, every fetched record `r` — the
store holds at most one record per `(language, msg)` pair — ends with
`table[r.language][r.msg] = r.translation`, whatever value files or earlier
loads had put there (the table before the call is arbitrary); and in the
fixed ordering of initialization (files first, then the store) the same
holds whenever the directory phase succeeded. -/
theorem loadFromStore_overrides (docs : List TranslationRecord) (tbl : Table)
    (hnd : (docs.map fun d => (d.language, d.msg)).Nodup) :
    (loadFromStore (.ok docs) tbl = (_addFromDatabase docs tbl, none)) ∧
    (∀ r, r ∈ docs →
      tableGet (_addFromDatabase docs tbl) r.language r.msg = some r.translation) ∧
    (∀ (dir : Option String) (globRes : Except JsErr (List String))
        (required : String → Except JsErr (JsObj String)),
      (addFromDir globRes required tbl).2 = none →
      ∀ r, r ∈ docs →
        tableGet (initLocale dir globRes required (.ok docs) tbl).1 r.language r.msg
          = some r.translation) := by
  refine ⟨rfl, addFromDatabase_mem docs hnd tbl, ?_⟩
  intro dir globRes required hok r hr
  unfold initLocale
  by_cases hd : dirCond dir
  · rw [if_pos hd]
    obtain ⟨t1, ho⟩ : ∃ t1, addFromDir globRes required tbl = (t1, none) :=
      ⟨(addFromDir globRes required tbl).1, by
        rw [← hok]⟩
    rw [ho]
    exact addFromDatabase_mem docs hnd t1 r hr
  · rw [if_neg hd]
    exact addFromDatabase_mem docs hnd tbl r hr

/-- C3 witness: a store record overrides a file-sourced value through the
initialization ordering. -/
theorem loadFromStore_overrides_witness :
    tableGet (initLocale (some "locales") (.ok ["t.fr.json"]) (fun _ => .ok [("Hello", "Foo")])
        (.ok [⟨"fr", "Hello", "Goodbye"⟩]) []).1 "fr" "Hello" = some "Goodbye" :=
  (loadFromStore_overrides [⟨"fr", "Hello", "Goodbye"⟩] [] (by decide)).2.2
    (some "locales") (.ok ["t.fr.json"]) (fun _ => .ok [("Hello", "Foo")]) (by decide)
    ⟨"fr", "Hello", "Goodbye"⟩ (by decide)

/-- C7: a path listed by the directory scan is loaded exactly when its
dot-split has 3 segments with a 2-character middle segment: the scan queues
precisely the matching files, in listing order; the contents of
non-matching listed files are never consulted (changing them cannot change
the outcome); and an explicit `addFromFile` never re-validates the shape —
it succeeds on a non-matching filename whose content parses. -/
theorem addFromDir_shape_filter (files : List String)
    (c1 c2 : String → Except JsErr (JsObj String)) (tbl : Table) :
    (∀ f, eligibleFile f = true ↔
      ((jsSplitDot f).length = 3 ∧ ((jsSplitDot f).getD 1 "").length = 2)) ∧
    (addFromDir (.ok files) c1 tbl
      = processQueue c1 (files.filter fun f => eligibleFile f) tbl) ∧
    ((∀ f, f ∈ files → eligibleFile f = true → c1 f = c2 f) →
      addFromDir (.ok files) c1 tbl = addFromDir (.ok files) c2 tbl) ∧
    (∀ (f : String) (m : JsObj String) (t2 : Table),
      eligibleFile f = false → (addFromFile f (.ok m) t2).2 = none) := by
  refine ⟨fun f => ?_, rfl, fun hagree => ?_, fun f m t2 _ => rfl⟩
  · simp [eligibleFile]
  · show processQueue c1 _ tbl = processQueue c2 _ tbl
    apply processQueue_congr
    intro g hg
    have hmem := List.mem_filter.mp hg
    exact hagree g hmem.1 hmem.2

/-- C7 witness: ineligible files' contents are irrelevant to the scan
(the two behaviours differ only on the ineligible `"bad"`), and an
ineligible filename loaded explicitly still succeeds. -/
theorem addFromDir_shape_filter_witness :
    (addFromDir (.ok ["a.fr.json", "bad"]) demoContents []
      = addFromDir (.ok ["a.fr.json", "bad"]) (fun _ => .ok [("Hello", "Bonjour")]) []) ∧
    (addFromFile "notmatching.json" (.ok [("a", "b")]) []).2 = none :=
  ⟨(addFromDir_shape_filter ["a.fr.json", "bad"] demoContents
      (fun _ => .ok [("Hello", "Bonjour")]) []).2.2.1 (by
        intro f hf he
        rcases List.mem_cons.mp hf with rfl | hf1
        · simp [demoContents]
        · rcases List.mem_cons.mp hf1 with rfl | hf2
          · exact absurd he (by decide)
          · cases hf2),
   (addFromDir_shape_filter [] demoContents demoContents []).2.2.2
     "notmatching.json" [("a", "b")] [] (by decide)⟩

/-- C8: multi-step sequences run strictly sequentially and halt at the
first failure without rollback: in the file queue, with every file before
`f` parsing and `f` failing, the surfaced error is `f`'s, the resulting
table is exactly the table after the successful prefix (mutations kept,
nothing rolled back), and the files after `f` are never attempted (their
contents are irrelevant); in initialization, a failing directory phase
surfaces its own error and the database phase is never attempted (its
response is irrelevant). -/
theorem sequence_halts (c : String → Except JsErr (JsObj String))
    (pre post : List String) (f : String) (tbl : Table) (e : JsErr)
    (hpre : ∀ g ∈ pre, ∃ m, c g = .ok m) (hf : c f = .error e) :
    processQueue c (pre ++ f :: post) tbl = ((processQueue c pre tbl).1, some e) ∧
    (∀ c2, (∀ g ∈ pre, c2 g = c g) → c2 f = c f →
      processQueue c2 (pre ++ f :: post) tbl = processQueue c (pre ++ f :: post) tbl) ∧
    (∀ (dir : Option String) (globRes : Except JsErr (List String))
        (req : String → Except JsErr (JsObj String))
        (fr1 fr2 : Except JsErr (List TranslationRecord)) (t1 : Table) (e1 : JsErr),
      dirCond dir = true → addFromDir globRes req tbl = (t1, some e1) →
      initLocale dir globRes req fr1 tbl = (t1, some e1) ∧
      initLocale dir globRes req fr2 tbl = initLocale dir globRes req fr1 tbl) := by
  refine ⟨processQueue_prefix_error c pre hpre post f tbl e hf,
    fun c2 ha hfa => processQueue_halt_agree c c2 pre hpre post f tbl e hf ha hfa,
    fun dir globRes req fr1 fr2 t1 e1 hd hadd => ?_⟩
  constructor
  · unfold initLocale
    rw [if_pos hd, hadd]
  · unfold initLocale
    rw [if_pos hd, if_pos hd, hadd]

/-- C8 witness: a concrete queue where the second file throws — the first
file's mutation is kept, the error is the second file's, and the third
file's content never matters. -/
theorem sequence_halts_witness :
    processQueue demoContents ["a.fr.json", "bad", "z.en.json"] []
      = ((processQueue demoContents ["a.fr.json"] []).1, some "boom") :=
  (sequence_halts demoContents ["a.fr.json"] ["z.en.json"] "bad" [] "boom"
    (fun g hg => ⟨[("Hello", "Bonjour")], by
      have hga : g = "a.fr.json" := by simpa using hg
      rw [hga]
      simp [demoContents]⟩)
    (by simp [demoContents])).1

/-- C9: a successful `addFromFile` whose parsed mapping is empty still
registers the file's language: when the language was previously absent, it
is now present with an empty set, and `locales` succeeds with `.ok []`
instead of failing. -/
theorem addFromFile_empty_mapping (filename : String) (tbl : Table)
    (h : jsGet tbl (languageOf filename) = none) :
    (addFromFile filename (.ok []) tbl).2 = none ∧
    locales (addFromFile filename (.ok []) tbl).1 (languageOf filename) = .ok [] := by
  refine ⟨rfl, ?_⟩
  have h1 : (addFromFile filename (.ok []) tbl).1
      = jsSet tbl (languageOf filename) [] := by
    simp [addFromFile, _processFile, langSet, h]
  rw [h1]
  simp [locales, jsGet_jsSet_self]

/-- C9 witness: loading an empty `fr` file into an empty table makes
`locales "fr"` return the empty set. -/
theorem addFromFile_empty_mapping_witness :
    locales (addFromFile "a.fr.json" (.ok []) []).1 (languageOf "a.fr.json") = .ok [] :=
  (addFromFile_empty_mapping "a.fr.json" [] (by decide)).2

/-- C10: a successful `addFromFile` only touches the set of the single
language derived from the path: the whole stored set of every other
language is unchanged. -/
theorem addFromFile_frame (filename : String) (locale : JsObj String) (tbl : Table)
    (l : String) (h : l ≠ languageOf filename) :
    jsGet (addFromFile filename (.ok locale) tbl).1 l = jsGet tbl l := by
  have h1 : (addFromFile filename (.ok locale) tbl).1 =
      jsSet tbl (languageOf filename)
        (locale.foldl fileInsert (langSet tbl (languageOf filename))) := rfl
  rw [h1]
  exact jsGet_jsSet_ne _ _ _ _ fun he => h he.symm

/-- C10 witness: loading a `fr` file leaves the `en` set untouched. -/
theorem addFromFile_frame_witness :
    jsGet (addFromFile "a.fr.json" (.ok [("x", "y")]) [("en", [("a", "b")])]).1 "en"
      = jsGet [("en", [("a", "b")])] "en" :=
  addFromFile_frame "a.fr.json" [("x", "y")] [("en", [("a", "b")])] "en" (by decide)

end Claims

end EntityLocale
